import Mathlib

/-!
Verification of the wrtr spellcheck subsystem specification against a shallow
embedding of the two spellchecker variants in the repository:

* the legacy engine `src/spellcheck.py` (`MarkdownSpellchecker`), and
* the services engine `src/src/wrtr/services/spellcheck.py`
  (`SimpleSpellchecker` / `MarkdownSpellchecker`),

together with the accept-suggestion replacement paths
(`src/spellcheck.py::replace_word`,
`src/src/wrtr/editor/keybindings.py::handle_key_event`) and the
offset/cursor conversion helpers of `src/src/wrtr/editor/buffer.py`.

Strings are embedded as `List Char`; Python string indices become list
indices.  The third-party SymSpell index (symspellpy) is embedded by its
documented contract: `lookup` returns every dictionary term within the
given Damerau-OSA edit distance of the query, ordered by edit distance
ascending and frequency count descending, and with `include_unknown` the
input itself (at distance `max+1`, count 0) when no candidate exists.
`create_dictionary_entry` adds the count to an existing entry or appends a
new one.  File I/O is made explicit: the user-dictionary file is a field of
the engine state, and operations that append to it take a `writeOk` flag
(`writeOk = false` embeds a failing write, e.g. a permission error).
-/

namespace Wrtr

/-- Characters of a string literal, the `List Char` embedding of Python strings. -/
def chars (s : String) : List Char := s.toList

/-- Python `str.lower()` for the ASCII range, applied characterwise. -/
def lowerStr (s : List Char) : List Char := s.map Char.toLower

/-- Python regex `\w` for the ASCII range: letters, digits and underscore. -/
def isWordChar (c : Char) : Bool := c.isAlphanum || c = '_'

/-- Python regex `\s`: the whitespace characters recognised by `str.strip` / `\s`. -/
def isSpaceCh (c : Char) : Bool :=
  c = ' ' || c = '\t' || c = '\n' || c = '\r' || c = '\x0b' || c = '\x0c'

/-- Python `s.endswith(suffix)`. -/
def endsWithStr (s suffix : List Char) : Bool :=
  decide (suffix.length ≤ s.length) && decide (s.drop (s.length - suffix.length) = suffix)

/-- Python `s.startswith(p)`. -/
def startsWithStr (s p : List Char) : Bool := decide (s.take p.length = p)

/-- Python `s.split(sep)` for a one-character separator: keeps empty fields. -/
def splitOnCh (sep : Char) : List Char → List (List Char)
  | [] => [[]]
  | c :: cs =>
    if c = sep then [] :: splitOnCh sep cs
    else
      match splitOnCh sep cs with
      | [] => [[c]]
      | l :: ls => (c :: l) :: ls

/-- Python `str.strip()`: remove leading and trailing whitespace. -/
def stripStr (s : List Char) : List Char :=
  ((s.dropWhile isSpaceCh).reverse.dropWhile isSpaceCh).reverse

/-- First whitespace-separated field of a line, as in `line.strip().split()[0]`. -/
def firstField (line : List Char) : List Char :=
  (line.dropWhile isSpaceCh).takeWhile (fun c => !isSpaceCh c)

/-- Order-preserving deduplication, the embedding of accumulating into a `set`. -/
def dedupStr (l : List (List Char)) : List (List Char) :=
  l.foldl (fun acc t => if t ∈ acc then acc else acc ++ [t]) []

/-- Damerau-OSA edit distance (the symspellpy default comparer), with an explicit
structural fuel so that it is computable by kernel reduction.  The fuel is
adequate whenever it is at least `a.length + b.length`. -/
def osaFuel : Nat → List Char → List Char → Nat
  | _, [], ys => ys.length
  | _, x :: xs, [] => (x :: xs).length
  | 0, _ :: _, _ :: _ => 0
  | fuel + 1, x :: xs, y :: ys =>
    if x = y then osaFuel fuel xs ys
    else
      let base := 1 + min (osaFuel fuel xs ys)
        (min (osaFuel fuel xs (y :: ys)) (osaFuel fuel (x :: xs) ys))
      match xs, ys with
      | x2 :: xs2, y2 :: ys2 =>
        if x = y2 ∧ x2 = y then min base (1 + osaFuel fuel xs2 ys2) else base
      | _, _ => base

/-- Damerau-OSA edit distance between two strings. -/
def osa (a b : List Char) : Nat := osaFuel (a.length + b.length) a b

/-- Suggestion item returned by a SymSpell lookup: matched dictionary term,
edit distance from the query, and frequency count of the term. -/
structure SuggestItem where
  term : List Char
  distance : Nat
  count : Nat
deriving DecidableEq

/-- The SymSpell index state: dictionary terms with frequency counts, in
insertion order. -/
abbrev Dict := List (List Char × Nat)

/-- symspellpy `create_dictionary_entry`: add `c` to the count of an existing
term, or append the term. -/
def createDictionaryEntry (d : Dict) (t : List Char) (c : Nat) : Dict :=
  match d with
  | [] => [(t, c)]
  | (t', c') :: rest =>
    if t' = t then (t', c' + c) :: rest
    else (t', c') :: createDictionaryEntry rest t c

/-- Whether the index contains a term. -/
def hasTerm (d : Dict) (t : List Char) : Bool := d.any (fun p => p.1 = t)

/-- All dictionary terms within `maxDist` of the query, with their distances,
in index order (before sorting). -/
def candidatesAll (d : Dict) (w : List Char) (maxDist : Nat) : List SuggestItem :=
  d.filterMap (fun p =>
    let dist := osa w p.1
    if dist ≤ maxDist then some ⟨p.1, dist, p.2⟩ else none)

/-- The lookup result order used by symspellpy: edit distance ascending, then
frequency count descending. -/
def sItemLe (a b : SuggestItem) : Prop :=
  a.distance < b.distance ∨ (a.distance = b.distance ∧ b.count ≤ a.count)

instance sItemLeDec : DecidableRel sItemLe := fun a b =>
  inferInstanceAs (Decidable (a.distance < b.distance ∨ (a.distance = b.distance ∧ b.count ≤ a.count)))

instance : IsTotal SuggestItem sItemLe :=
  ⟨by intro a b; unfold sItemLe; omega⟩

instance : IsTrans SuggestItem sItemLe :=
  ⟨by intro a b c; unfold sItemLe; omega⟩

/-- Comparison by edit distance alone, the sort key used by
`sorted(all_suggestions, key=lambda x: x.distance)` in the legacy engine. -/
def distLe (a b : SuggestItem) : Prop := a.distance ≤ b.distance

instance distLeDec : DecidableRel distLe := fun a b =>
  inferInstanceAs (Decidable (a.distance ≤ b.distance))

instance : IsTotal SuggestItem distLe := ⟨by intro a b; unfold distLe; omega⟩

instance : IsTrans SuggestItem distLe := ⟨by intro a b c; unfold distLe; omega⟩

/-- symspellpy `lookup(w, Verbosity.ALL, maxDist)` without `include_unknown`:
all terms within the distance, sorted by (distance, count desc). -/
def symAll (d : Dict) (w : List Char) (maxDist : Nat) : List SuggestItem :=
  List.insertionSort sItemLe (candidatesAll d w maxDist)

/-- symspellpy `lookup(w, Verbosity.ALL, maxDist, include_unknown=True)`: when
no term is within the distance, the input itself is returned at distance
`maxDist + 1` with count 0. -/
def lookupAllInc (d : Dict) (w : List Char) (maxDist : Nat) : List SuggestItem :=
  match symAll d w maxDist with
  | [] => [⟨w, maxDist + 1, 0⟩]
  | s => s

/-- symspellpy `lookup(w, Verbosity.TOP, maxDist, include_unknown=True)`: the
single best suggestion (least distance, then greatest count). -/
def lookupTopInc (d : Dict) (w : List Char) (maxDist : Nat) : List SuggestItem :=
  (lookupAllInc d w maxDist).take 1

/-- Maximal runs of characters satisfying `p`, with their start offsets.
The accumulator carries the start offset and the reversed characters of the
run currently being read. -/
def runsAux (p : Char → Bool) : List Char → Nat → Option (Nat × List Char) → List (List Char × Nat)
  | [], _, none => []
  | [], _, some (s, acc) => [(acc.reverse, s)]
  | c :: cs, i, none =>
    if p c then runsAux p cs (i + 1) (some (i, [c]))
    else runsAux p cs (i + 1) none
  | c :: cs, i, some (s, acc) =>
    if p c then runsAux p cs (i + 1) (some (s, c :: acc))
    else (acc.reverse, s) :: runsAux p cs (i + 1) none

/-- Maximal runs of characters satisfying `p` in a string, with offsets. -/
def runs (p : Char → Bool) (t : List Char) : List (List Char × Nat) := runsAux p t 0 none

/-- Tokenizer of the legacy engine: `re.finditer(r'\b\w+\b', text)`.  A match
of that pattern is exactly a maximal run of word characters. -/
def tokenizeOld (t : List Char) : List (List Char × Nat) := runs isWordChar t

/-- Reduce a run of word characters and apostrophes to the single
`\b[\w']+\b` match inside it: the segment from its first to its last word
character, i.e. the run with leading and trailing apostrophes removed
(runs with no word character contain no match). -/
def trimApos (r : List Char) (s : Nat) : Option (List Char × Nat) :=
  let lead := (r.takeWhile (fun c => c = '\'')).length
  let core := ((r.drop lead).reverse.dropWhile (fun c => c = '\'')).reverse
  if core = [] then none else some (core, s + lead)

/-- Tokenizer of the services engine: `re.finditer(r"\b[\w']+\b", text)`.
Each maximal run of word characters and apostrophes contains exactly one
match, obtained by trimming the apostrophes at both ends. -/
def tokenizeNew (t : List Char) : List (List Char × Nat) :=
  (runs (fun c => isWordChar c || c = '\'') t).filterMap (fun r => trimApos r.1 r.2)

/-- Smart-quote normalisation performed at the start of the services
`check_text`: `text.replace("’", "'").replace("‘", "'")`. -/
def normalizeApos (t : List Char) : List Char :=
  t.map (fun c => if c = '’' ∨ c = '‘' then '\'' else c)

/-- Length of the regex match `https?://[^\s]+|www\.[^\s]+` anchored at the
start of `r`, if any. -/
def urlMatchAtNew (r : List Char) : Option Nat :=
  if startsWithStr r (chars "https://") then
    let run := ((r.drop 8).takeWhile (fun c => !isSpaceCh c)).length
    if run ≥ 1 then some (8 + run) else none
  else if startsWithStr r (chars "http://") then
    let run := ((r.drop 7).takeWhile (fun c => !isSpaceCh c)).length
    if run ≥ 1 then some (7 + run) else none
  else if startsWithStr r (chars "www.") then
    let run := ((r.drop 4).takeWhile (fun c => !isSpaceCh c)).length
    if run ≥ 1 then some (4 + run) else none
  else none

/-- Length of the regex match `https?://[^\s]+` anchored at the start of `r`,
the URL pattern of the legacy engine. -/
def urlMatchAtOld (r : List Char) : Option Nat :=
  if startsWithStr r (chars "https://") then
    let run := ((r.drop 8).takeWhile (fun c => !isSpaceCh c)).length
    if run ≥ 1 then some (8 + run) else none
  else if startsWithStr r (chars "http://") then
    let run := ((r.drop 7).takeWhile (fun c => !isSpaceCh c)).length
    if run ≥ 1 then some (7 + run) else none
  else none

/-- Lazily search for the first `)` (the `\(.*?\)` tail of a Markdown link
match); `.` does not cross newlines.  Returns the total number of characters
of the whole match when found. -/
def parenCloseAt : List Char → Nat → Option Nat
  | [], _ => none
  | c :: rest, n =>
    if c = '\n' then none
    else if c = ')' then some (n + 1)
    else parenCloseAt rest (n + 1)

/-- Lazily search for `](...)` after the opening `[` of `\[.*?\]\(.*?\)`;
`n` counts the characters consumed so far including the `[`. -/
def linkCloseAt : List Char → Nat → Option Nat
  | [], _ => none
  | c :: rest, n =>
    if c = '\n' then none
    else if c = ']' then
      match rest with
      | '(' :: rest2 =>
        match parenCloseAt rest2 (n + 2) with
        | some m => some m
        | none => linkCloseAt rest (n + 1)
      | _ => linkCloseAt rest (n + 1)
    else linkCloseAt rest (n + 1)

/-- Length of the regex match `\[.*?\]\(.*?\)` anchored at the start of `r`. -/
def linkMatchAt (r : List Char) : Option Nat :=
  match r with
  | '[' :: rest => linkCloseAt rest 1
  | _ => none

/-- Scanner for `re.finditer`: non-overlapping leftmost matches of `matchAt`
over the text, as (start, end) spans.  The fuel is the remaining length. -/
def spansGo (matchAt : List Char → Option Nat) : Nat → List Char → Nat → List (Nat × Nat)
  | 0, _, _ => []
  | fuel + 1, r, i =>
    match r with
    | [] => []
    | _ :: rest =>
      match matchAt r with
      | some n => (i, i + n) :: spansGo matchAt fuel (r.drop (max n 1)) (i + max n 1)
      | none => spansGo matchAt fuel rest (i + 1)

/-- All non-overlapping leftmost matches of `matchAt` in `t`. -/
def spansOf (matchAt : List Char → Option Nat) (t : List Char) : List (Nat × Nat) :=
  spansGo matchAt t.length t 0

/-- Skip spans of the services `check_text`: URL matches followed by Markdown
link matches (`url_spans.extend(link_spans)`). -/
def newSkipSpans (t : List Char) : List (Nat × Nat) :=
  spansOf urlMatchAtNew t ++ spansOf linkMatchAt t

/-- Whether an offset lies in one of the spans (`start <= pos < end`). -/
def inSpans (spans : List (Nat × Nat)) (pos : Nat) : Bool :=
  spans.any (fun sp => decide (sp.1 ≤ pos) && decide (pos < sp.2))

/-- A misspelled-word record `(word, suggestions, start_offset)`. -/
abbrev Entry := List Char × List SuggestItem × Nat

/-- State of the services engine `MarkdownSpellchecker`
(`src/src/wrtr/services/spellcheck.py`): the SymSpell index, the in-memory
user terms and session-ignored terms, the user dictionary file (one term per
line), and the misspelling list with its cursor. -/
structure SpellState where
  dict : Dict
  userTerms : List (List Char)
  ignoredTerms : List (List Char)
  userFileLines : List (List Char)
  misspelledWords : List Entry
  currentIndex : Int
deriving DecidableEq

/-- Engine construction (`__init__`): load the base dictionary, read the user
dictionary file, record each term and insert it into the index (once per
line), start with an empty misspelling list and cursor `-1`. -/
def mkSpellState (baseDict : Dict) (fileLines : List (List Char)) : SpellState :=
  let terms := (fileLines.map (fun l => lowerStr (firstField l))).filter (fun t => t ≠ [])
  { dict := terms.foldl (fun d t => createDictionaryEntry d t 1) baseDict
    userTerms := dedupStr terms
    ignoredTerms := []
    userFileLines := fileLines
    misspelledWords := []
    currentIndex := -1 }

/-- The reload performed at the start of every services `check_text`: re-read
the user dictionary file into `user_terms` and insert every term into the
SymSpell index with count 1 (incrementing the count of terms already
present). -/
def reloadUserTerms (s : SpellState) : SpellState :=
  let terms := dedupStr ((s.userFileLines.map (fun l => lowerStr (firstField l))).filter (fun t => t ≠ []))
  { s with
    userTerms := terms
    dict := terms.foldl (fun d t => createDictionaryEntry d t 1) s.dict }

/-- Python `word and word[0].isupper()`. -/
def startsUpper (w : List Char) : Bool :=
  match w with
  | c :: _ => c.isUpper
  | [] => false

/-- The `base_sugg` test of the stray-apostrophe rule and of the capitalized
rule: the TOP lookup returns the query itself at distance 0. -/
def topHitZero (d : Dict) (q : List Char) : Bool :=
  match lookupTopInc d q 2 with
  | h :: _ => decide (lowerStr h.term = q) && decide (h.distance = 0)
  | [] => false

/-- Skip policy of the services `check_text`, applied to a token and its
offset (a `true` result is a `continue` in the Python loop). -/
def skipNew (d : Dict) (userTerms ignoredTerms : List (List Char))
    (spans : List (Nat × Nat)) (w : List Char) (pos : Nat) : Bool :=
  let lw := lowerStr w
  if lw = chars "'s" || endsWithStr lw (chars "'s") || lw = chars "s" then true
  else if (startsWithStr lw (chars "'") || endsWithStr lw (chars "'")) && decide (lw.length > 1)
      && (let base := (lw.dropWhile (fun c => c = '\'')).reverse.dropWhile (fun c => c = '\'') |>.reverse
          !base.isEmpty && topHitZero d base) then true
  else if lw ∈ userTerms then true
  else if lw ∈ ignoredTerms then true
  else if inSpans spans pos then true
  else if (let ds := w.takeWhile Char.isDigit
           !ds.isEmpty && decide (w.drop ds.length ∈ [chars "st", chars "nd", chars "rd", chars "th"]))
      || (!w.isEmpty && w.all Char.isDigit) then true
  else if startsUpper w && topHitZero d lw then true
  else false

/-- Per-token flagging of the services `check_text`: an ALL lookup with
`include_unknown`; the word is recorded iff the first suggestion's lowercase
term differs from the word's lowercase form. -/
def flagTokenNew (d : Dict) (w : List Char) (pos : Nat) : List Entry :=
  match lookupAllInc d w 2 with
  | [] => []
  | h :: rest =>
    if lowerStr h.term ≠ lowerStr w then [(w, h :: rest, pos)] else []

/-- The token loop of the services `check_text`. -/
def scanTokensNew (d : Dict) (userTerms ignoredTerms : List (List Char))
    (spans : List (Nat × Nat)) : List (List Char × Nat) → List Entry
  | [] => []
  | (w, pos) :: rest =>
    (if skipNew d userTerms ignoredTerms spans w pos then []
     else flagTokenNew d w pos)
    ++ scanTokensNew d userTerms ignoredTerms spans rest

/-- Services `check_text`: reload the user dictionary, normalise smart
apostrophes, compute the URL/link skip spans, scan the tokens, and reset the
cursor to 0 when the new list is non-empty and to -1 otherwise. -/
def checkTextNew (s : SpellState) (text : List Char) : SpellState :=
  let s := reloadUserTerms s
  let t := normalizeApos text
  let entries := scanTokensNew s.dict s.userTerms s.ignoredTerms (newSkipSpans t) (tokenizeNew t)
  { s with
    misspelledWords := entries
    currentIndex := if entries = [] then -1 else 0 }

/-- Services `add_to_dictionary`: insert the word (original casing) into the
SymSpell index, then add the lowercase term to `user_terms` and append it to
the user dictionary file unless it is already a user term.  The file append
is wrapped in `try/except`: `writeOk = false` embeds a failing write, which
leaves the file unchanged but never raises. -/
def addToDictionary (s : SpellState) (w : List Char) (writeOk : Bool) : SpellState :=
  let s1 := { s with dict := createDictionaryEntry s.dict w 1 }
  let term := lowerStr w
  if term ∈ s1.userTerms then s1
  else
    let s2 := { s1 with userTerms := s1.userTerms ++ [term] }
    if writeOk then { s2 with userFileLines := s2.userFileLines ++ [term] } else s2

/-- Services `get_current_word`: the entry at `current_index` when that index
is in range, else `None`. -/
def getCurrentWord (s : SpellState) : Option Entry :=
  if 0 ≤ s.currentIndex ∧ s.currentIndex < (s.misspelledWords.length : Int) then
    s.misspelledWords[s.currentIndex.toNat]?
  else none

/-- Services `next_word`: advance the cursor modulo the list length and
return the new current entry (`None` on an empty list). -/
def nextWord (s : SpellState) : SpellState × Option Entry :=
  if s.misspelledWords = [] then (s, none)
  else
    let s' := { s with currentIndex := (s.currentIndex + 1) % (s.misspelledWords.length : Int) }
    (s', getCurrentWord s')

/-- Services `previous_word`: retreat the cursor modulo the list length
(Python `%` returns a non-negative result, as does `Int.emod`). -/
def previousWord (s : SpellState) : SpellState × Option Entry :=
  if s.misspelledWords = [] then (s, none)
  else
    let s' := { s with currentIndex := (s.currentIndex - 1) % (s.misspelledWords.length : Int) }
    (s', getCurrentWord s')

/-- Whether `pat` occurs as a contiguous substring. -/
def hasSubstr (pat : List Char) : List Char → Bool
  | [] => pat.isEmpty
  | c :: rest => startsWithStr (c :: rest) pat || hasSubstr pat rest

/-- The `common_words` set of the legacy engine. -/
def commonWords : List (List Char) :=
  [chars "the", chars "a", chars "an", chars "and", chars "or", chars "but", chars "in",
   chars "on", chars "at", chars "for", chars "of", chars "with", chars "by", chars "from",
   chars "up", chars "about", chars "into", chars "through", chars "during", chars "before",
   chars "after", chars "above", chars "below", chars "between", chars "among", chars "under",
   chars "over", chars "i", chars "you", chars "he", chars "she", chars "it", chars "we",
   chars "they", chars "me", chars "him", chars "her", chars "us", chars "them", chars "my",
   chars "your", chars "his", chars "its", chars "our", chars "their", chars "mine",
   chars "yours", chars "ours", chars "theirs", chars "this", chars "that", chars "these",
   chars "those", chars "who", chars "what", chars "where", chars "when", chars "why",
   chars "how", chars "is", chars "am", chars "are", chars "was", chars "were", chars "be",
   chars "being", chars "been", chars "have", chars "has", chars "had", chars "do",
   chars "does", chars "did", chars "will", chars "would", chars "could", chars "should",
   chars "may", chars "might", chars "must", chars "can", chars "shall", chars "get",
   chars "got", chars "go", chars "going", chars "gone", chars "come", chars "came",
   chars "see", chars "saw"]

/-- The characters of the markdown-syntax rule `^[#*_`\[\]()]+$` (the backquote
is written by code point). -/
def markupOnlyChars : List Char :=
  ['#', '*', '_', Char.ofNat 96, '[', ']', '(', ')']

/-- Python `str.isupper()` for ASCII: at least one cased character, and no
lowercase character. -/
def pyIsUpper (w : List Char) : Bool := w.any Char.isUpper && !(w.any Char.isLower)

/-- Suffixes of the contraction rule `^(?:[a-zA-Z]+(?:'t|'re|'ve|'ll|'d|'s|'m))$`. -/
def contractionSuffixes : List (List Char) :=
  [chars "'t", chars "'re", chars "'ve", chars "'ll", chars "'d", chars "'s", chars "'m"]

/-- The contraction rule of the legacy skip policy. -/
def isContraction (w : List Char) : Bool :=
  contractionSuffixes.any (fun suf =>
    endsWithStr w suf && decide (suf.length < w.length)
      && (w.take (w.length - suf.length)).all Char.isAlpha)

/-- Fullmatch of `[A-Za-z]*\d+[A-Za-z]*`. -/
def mixedAlnumFull (w : List Char) : Bool :=
  let a := w.takeWhile Char.isAlpha
  let rest := w.drop a.length
  let d := rest.takeWhile Char.isDigit
  !d.isEmpty && (rest.drop d.length).all Char.isAlpha

/-- The legacy `_should_ignore_word`, with its rules in source order (the
early `return False` cut-offs for short words are kept as in the source). -/
def shouldIgnoreLegacy (w : List Char) : Bool :=
  if w.isEmpty then true
  else if w.any Char.isDigit then true
  else if decide (2 ≤ w.length) && w.all Char.isUpper then true
  else if w.length ≤ 1 then true
  else if !w.isEmpty && w.all Char.isDigit then true
  else if w.any Char.isDigit && w.any Char.isAlpha then true
  else if lowerStr w ∈ commonWords then true
  else if '\'' ∈ w then true
  else if decide (w.length ≤ 2) && decide (w ∉ commonWords) then false
  else if decide (w.length ≤ 3) && decide (w ∉ commonWords) then false
  else if w = chars "http" || w = chars "https" || w = chars "ftp" || w = chars "www"
      || '@' ∈ w || hasSubstr (chars "://") w then true
  else if !w.isEmpty && w.all (fun c => c ∈ markupOnlyChars) then true
  else if decide (2 ≤ w.length) && pyIsUpper w then true
  else if isContraction w then true
  else if mixedAlnumFull w then true
  else false

/-- Characters allowed in the local part of the legacy email pattern
`[A-Za-z0-9._%+-]`. -/
def isEmailLocalCh (c : Char) : Bool :=
  c.isAlphanum || c = '.' || c = '_' || c = '%' || c = '+' || c = '-'

/-- Characters allowed in the domain part of the legacy email pattern
`[A-Za-z0-9.-]`. -/
def isEmailDomainCh (c : Char) : Bool := c.isAlphanum || c = '.' || c = '-'

/-- Match of the legacy email pattern
`\b[A-Za-z0-9._%+-]+@[A-Za-z0-9.-]+\.[A-Z|a-z]{2,}\b` anchored at the start
of `r`: a word character starts the local part, an `@`, then a domain whose
match ends (after backtracking) with a dot followed by at least two letters
at a word boundary. -/
def emailMatchAt (r : List Char) : Option Nat :=
  match r with
  | [] => none
  | c :: _ =>
    if isWordChar c then
      let loc := r.takeWhile isEmailLocalCh
      match r.drop loc.length with
      | '@' :: rest =>
        let dom := rest.takeWhile isEmailDomainCh
        let dom2 := (dom.reverse.dropWhile (fun c => !c.isAlpha)).reverse
        let tld := (dom2.reverse.takeWhile Char.isAlpha).reverse
        if decide (2 ≤ tld.length)
            && decide ((dom2.take (dom2.length - tld.length)).reverse.head? = some '.')
            && decide (2 ≤ dom2.length - tld.length) then
          some (loc.length + 1 + dom2.length)
        else none
      | _ => none
    else none

/-- Skip ranges of the legacy `check_text`: URL matches then email matches. -/
def oldSkipRanges (t : List Char) : List (Nat × Nat) :=
  spansOf urlMatchAtOld t ++ spansOf emailMatchAt t

/-- The word cleaning `re.sub(r"[^\w']", '', word).lower()` of the legacy
engine. -/
def cleanWord (w : List Char) : List Char :=
  lowerStr (w.filter (fun c => isWordChar c || c = '\''))

/-- Per-token behaviour of the legacy `check_text` after the skip checks: a
distance-0 membership test, then a fuzzy lookup (retried with `word.lower()`
when empty), sorted by distance and capped at five; a word with no
suggestions is still recorded, with an empty list.  The final short-word
re-check of the source is kept verbatim (it cannot add an entry, as its
lookup repeats one that was empty). -/
def perTokenOld (d : Dict) (w : List Char) (pos : Nat) : List Entry :=
  let clean := cleanWord w
  let s0 := symAll d clean 0
  if s0 ≠ [] then []
  else
    let all1 := symAll d clean 2
    let all2 := if all1 = [] then symAll d (lowerStr w) 2 else all1
    let suggs := (List.insertionSort distLe all2).take 5
    let first := if suggs ≠ [] then [(w, suggs, pos)] else [(w, ([] : List SuggestItem), pos)]
    let extra :=
      if w.length ≤ 3 ∧ suggs = [] then
        let s2 := (List.insertionSort distLe (symAll d (lowerStr w) 2)).take 5
        if s2 ≠ [] then [(w, s2, pos)] else []
      else []
    first ++ extra

/-- The token loop of the legacy `check_text`. -/
def scanTokensOld (d : Dict) (spans : List (Nat × Nat)) : List (List Char × Nat) → List Entry
  | [] => []
  | (w, pos) :: rest =>
    (if shouldIgnoreLegacy w then []
     else if inSpans spans pos then []
     else perTokenOld d w pos)
    ++ scanTokensOld d spans rest

/-- The misspelling list computed by the legacy `check_text` on a document. -/
def checkTextOldList (d : Dict) (t : List Char) : List Entry :=
  scanTokensOld d (oldSkipRanges t) (tokenizeOld t)

/-- State of the legacy engine (`src/spellcheck.py`): the SymSpell index, the
raw user dictionary file contents, and the misspelling list with cursor. -/
structure LegacyState where
  dict : Dict
  userFile : List Char
  misspelledWords : List Entry
  currentIndex : Int
deriving DecidableEq

/-- Legacy `check_text`: rebuild the misspelling list and reset the cursor;
the SymSpell index and the user dictionary file are not touched. -/
def checkTextLegacy (s : LegacyState) (t : List Char) : LegacyState :=
  let l := checkTextOldList s.dict t
  { s with misspelledWords := l, currentIndex := if l = [] then -1 else 0 }

/-- Legacy `add_to_dictionary`: read the user dictionary file and split it
into lines; return early if the cleaned word equals one of those lines;
otherwise append `"<word> 1\n"` to the file — an append that is NOT wrapped
in `try/except`, so a failing write (`writeOk = false`) raises
(`Except.error`) — and insert the word into the SymSpell index. -/
def addToDictionaryLegacy (s : LegacyState) (w : List Char) (writeOk : Bool) :
    Except Unit LegacyState :=
  let clean := cleanWord w
  let existing := splitOnCh '\n' (stripStr s.userFile)
  if clean ∈ existing then .ok s
  else if !writeOk then .error ()
  else
    let s1 := { s with userFile := s.userFile ++ clean ++ chars " 1\n" }
    let s2 := { s1 with dict := createDictionaryEntry s1.dict clean 1 }
    .ok (if clean ≠ lowerStr w then
          { s2 with dict := createDictionaryEntry s2.dict (lowerStr w) 1 }
        else s2)

/-- Python `str.replace(old, new)`: replace every non-overlapping occurrence,
left to right. -/
def pyReplaceGo : Nat → List Char → List Char → List Char → List Char
  | 0, s, _, _ => s
  | fuel + 1, s, old, new =>
    match s with
    | [] => []
    | c :: rest =>
      if !old.isEmpty && startsWithStr s old then
        new ++ pyReplaceGo fuel (s.drop old.length) old new
      else c :: pyReplaceGo fuel rest old new

/-- Python `full_text.replace(old, new)`. -/
def pyReplace (fullText old new : List Char) : List Char :=
  pyReplaceGo fullText.length fullText old new

/-- Legacy `replace_word(old, suggestion, full_text)`:
`full_text.replace(old, suggestion)`. -/
def replaceWordLegacy (old suggestion fullText : List Char) : List Char :=
  pyReplace fullText old suggestion

/-- Python `text.split("\n")` of `TextBuffer` (`src/src/wrtr/editor/buffer.py`). -/
def splitNl : List Char → List (List Char)
  | [] => [[]]
  | c :: cs =>
    if c = '\n' then [] :: splitNl cs
    else
      match splitNl cs with
      | [] => [[c]]
      | l :: ls => (c :: l) :: ls

/-- Python `"\n".join(lines)`, the inverse used by `TextBuffer.get_text`. -/
def joinNl : List (List Char) → List Char
  | [] => []
  | [l] => l
  | l :: ls => l ++ '\n' :: joinNl ls

/-- The scanning loop of `TextBuffer.convert_text_position_to_cursor`,
written with the remaining relative position: a line absorbs positions up to
its length (the newline position maps to the end of the line), otherwise the
position of the following lines shrinks by `len(line) + 1`. -/
def convertLoop : List (List Char) → Nat → Option (Nat × Nat)
  | [], _ => none
  | line :: rest, tp =>
    if tp ≤ line.length then some (0, tp)
    else
      match convertLoop rest (tp - (line.length + 1)) with
      | some rc => some (rc.1 + 1, rc.2)
      | none => none

/-- The `TextBuffer.convert_text_position_to_cursor` helper: absolute text index to
`(row, col)`, with the source's end-of-buffer fallback. -/
def convertTextPositionToCursor (lines : List (List Char)) (tp : Nat) : Nat × Nat :=
  match convertLoop lines tp with
  | some rc => rc
  | none =>
    if lines.isEmpty then (0, 0) else (lines.length - 1, (lines.getLastD []).length)

/-- The `TextBuffer.rowcol_to_offset` helper: sum the lengths (plus newline) of the
lines before `row`, then add `min(col, len(line))`. -/
def rowColToOffset : List (List Char) → Nat × Nat → Nat
  | [], _ => 0
  | line :: rest, rc =>
    if rc.1 = 0 then min rc.2 line.length
    else line.length + 1 + rowColToOffset rest (rc.1 - 1, rc.2)

/-- Textual's `TextArea.replace(start, end, insert)` (third-party widget),
embedded by its contract: replace the document text between the two
`(row, col)` locations, identified with flat-text offsets through
`rowcol_to_offset`. -/
def textAreaReplace (lines : List (List Char)) (a b : Nat × Nat) (ins : List Char) : List Char :=
  let t := joinNl lines
  t.take (rowColToOffset lines a) ++ ins ++ t.drop (rowColToOffset lines b)

/-- The accept-suggestion path of
`src/src/wrtr/editor/keybindings.py::handle_key_event`: take the current
entry's recorded offset, convert `word_start` and `word_end` to cursor
locations, and replace that range with the suggestion. -/
def applySuggestionKeybinding (d w : List Char) (pos : Nat) (sugg : List Char) : List Char :=
  let lines := splitNl d
  textAreaReplace lines (convertTextPositionToCursor lines pos)
    (convertTextPositionToCursor lines (pos + w.length)) sugg

/-- The cursor-index invariant of the misspelling list state machine:
`-1` exactly on an empty list, otherwise a position inside the list. -/
def cursorInv (s : SpellState) : Prop :=
  (s.misspelledWords = [] → s.currentIndex = -1) ∧
  (s.misspelledWords ≠ [] →
    0 ≤ s.currentIndex ∧ s.currentIndex < (s.misspelledWords.length : Int))

instance cursorInvDec (s : SpellState) : Decidable (cursorInv s) :=
  inferInstanceAs (Decidable ((s.misspelledWords = [] → s.currentIndex = -1) ∧
    (s.misspelledWords ≠ [] →
      0 ≤ s.currentIndex ∧ s.currentIndex < (s.misspelledWords.length : Int))))

/-- Concrete fixture: a dictionary containing only `dont`. -/
def dictDont : Dict := [(chars "dont", 5)]

/-- Engine built over `dictDont` with an empty user dictionary. -/
def stDont : SpellState := mkSpellState dictDont []

/-- Concrete fixture: a dictionary containing only `cat`. -/
def dictCat : Dict := [(chars "cat", 5)]

/-- Engine built over `dictCat` with an empty user dictionary. -/
def stCat : SpellState := mkSpellState dictCat []

/-- Concrete fixture: a small dictionary for the `Teh cat sat` example. -/
def dictTeh : Dict :=
  [(chars "the", 100), (chars "cat", 50), (chars "sat", 30), (chars "ten", 10)]

/-- Engine built over `dictTeh` with an empty user dictionary. -/
def stTeh : SpellState := mkSpellState dictTeh []

/-- Engine built over `dictCat` whose user dictionary file contains `cad`. -/
def stCad : SpellState := mkSpellState dictCat [chars "cad"]

/-- Legacy engine fixture over `dictCat` with an empty user dictionary file. -/
def legacyEmpty : LegacyState :=
  { dict := dictCat, userFile := [], misspelledWords := [], currentIndex := -1 }

/-- A services-engine state with two misspelling entries, for navigation
witnesses. -/
def navEx : SpellState :=
  { dict := [], userTerms := [], ignoredTerms := [], userFileLines := [],
    misspelledWords := [(chars "teh", [], 0), (chars "wrld", [], 4)],
    currentIndex := 0 }

/-- A document containing a smart apostrophe (U+2019). -/
def docSmart : List Char := chars "don’t"

/-- Whether a legacy dictionary-add raised. -/
def isError (r : Except Unit LegacyState) : Bool :=
  match r with
  | .error _ => true
  | .ok _ => false

/-- User-dictionary file contents after one successful legacy add of `foo`. -/
def legacyAfterOneAdd : Option (List Char) :=
  match addToDictionaryLegacy legacyEmpty (chars "foo") true with
  | .error _ => none
  | .ok s1 => some s1.userFile

/-- User-dictionary file contents after two consecutive successful legacy
adds of `foo`. -/
def legacyAfterTwoAdds : Option (List Char) :=
  match addToDictionaryLegacy legacyEmpty (chars "foo") true with
  | .error _ => none
  | .ok s1 =>
    match addToDictionaryLegacy s1 (chars "foo") true with
    | .error _ => none
    | .ok s2 => some s2.userFile

/-- A valid code point keeps its value through `Char.ofNat`. -/
theorem toNatOfNatValid {n : Nat} (h : n.isValidChar) : (Char.ofNat n).toNat = n := by
  rw [Char.ofNat, dif_pos h]
  rfl

/-- Lowercasing a character is idempotent. -/
theorem toLowerIdem (c : Char) : c.toLower.toLower = c.toLower := by
  unfold Char.toLower
  by_cases h : 65 ≤ c.toNat ∧ c.toNat ≤ 90
  · rw [if_pos h]
    have hv : (c.toNat + 32).isValidChar := Or.inl (by omega)
    have ht : (Char.ofNat (c.toNat + 32)).toNat = c.toNat + 32 := toNatOfNatValid hv
    rw [ht, if_neg (by omega)]
  · rw [if_neg h, if_neg h]

/-- Lowercasing a string is idempotent. -/
theorem lowerStrIdem (s : List Char) : lowerStr (lowerStr s) = lowerStr s := by
  unfold lowerStr
  rw [List.map_map]
  exact List.map_congr_left (fun c _ => toLowerIdem c)

/-- The OSA distance of a string to itself is 0, at any fuel. -/
theorem osaFuelSelf : ∀ (f : Nat) (a : List Char), osaFuel f a a = 0 := by
  intro f a
  induction a generalizing f with
  | nil => cases f <;> rfl
  | cons x xs ih =>
    cases f with
    | zero => rfl
    | succ f => simp [osaFuel, ih]

/-- The OSA distance of a string to itself is zero. -/
theorem osaSelf (a : List Char) : osa a a = 0 := osaFuelSelf _ a

/-- With mismatching heads the fuelled OSA distance is positive. -/
theorem osaFuelPos (f : Nat) (x y : Char) (xs ys : List Char) (h : x ≠ y) :
    0 < osaFuel (f + 1) (x :: xs) (y :: ys) := by
  simp only [osaFuel, if_neg h]
  cases xs <;> cases ys <;> dsimp <;> first | omega | (split <;> omega)

/-- With adequate fuel, OSA distance 0 implies equality. -/
theorem osaFuelEqZero :
    ∀ (f : Nat) (a b : List Char), a.length + b.length ≤ f → osaFuel f a b = 0 → a = b := by
  intro f
  induction f with
  | zero =>
    intro a b hl h
    cases a with
    | nil =>
      cases b with
      | nil => rfl
      | cons y ys => simp [osaFuel] at h
    | cons x xs =>
      cases b with
      | nil => simp [osaFuel] at h
      | cons y ys => simp at hl
  | succ f ih =>
    intro a b hl h
    cases a with
    | nil =>
      cases b with
      | nil => rfl
      | cons y ys => simp [osaFuel] at h
    | cons x xs =>
      cases b with
      | nil => simp [osaFuel] at h
      | cons y ys =>
        by_cases hxy : x = y
        · subst hxy
          have h0 : osaFuel f xs ys = 0 := by simpa [osaFuel] using h
          have := ih xs ys (by simp at hl; omega) h0
          rw [this]
        · exact absurd h (Nat.pos_iff_ne_zero.mp (osaFuelPos f x y xs ys hxy))

/-- Distance zero implies equality: `osa a b = 0` gives `a = b`. -/
theorem osaEqZero {a b : List Char} (h : osa a b = 0) : a = b :=
  osaFuelEqZero _ a b (Nat.le_refl _) h

/-- The SymSpell ALL lookup result is sorted by (distance, count desc). -/
theorem sortedSymAll (d : Dict) (w : List Char) (m : Nat) :
    List.Sorted sItemLe (symAll d w m) :=
  List.sorted_insertionSort sItemLe _

/-- The SymSpell ALL lookup result is a permutation of the candidates. -/
theorem symAllPerm (d : Dict) (w : List Char) (m : Nat) :
    (symAll d w m).Perm (candidatesAll d w m) :=
  List.perm_insertionSort _ _

/-- Shape of a lookup candidate: a dictionary entry at its OSA distance. -/
theorem memCandidatesAll {d : Dict} {w : List Char} {m : Nat} {a : SuggestItem}
    (h : a ∈ candidatesAll d w m) :
    (a.term, a.count) ∈ d ∧ a.distance = osa w a.term ∧ a.distance ≤ m := by
  unfold candidatesAll at h
  rw [List.mem_filterMap] at h
  obtain ⟨p, hp, heq⟩ := h
  dsimp at heq
  split at heq
  · next hle =>
    cases heq
    exact ⟨hp, rfl, hle⟩
  · exact absurd heq (by simp)

/-- A dictionary entry within the distance bound is a candidate. -/
theorem candidatesAllOfMem {d : Dict} {t w : List Char} {c m : Nat}
    (h : (t, c) ∈ d) (hle : osa w t ≤ m) :
    (⟨t, osa w t, c⟩ : SuggestItem) ∈ candidatesAll d w m := by
  unfold candidatesAll
  rw [List.mem_filterMap]
  exact ⟨(t, c), h, by dsimp; rw [if_pos hle]⟩

/-- Index membership as an existence statement. -/
theorem hasTermIff {d : Dict} {t : List Char} : hasTerm d t = true ↔ ∃ c, (t, c) ∈ d := by
  unfold hasTerm
  rw [List.any_eq_true]
  constructor
  · rintro ⟨p, hp, he⟩
    have h1 : p.1 = t := by simpa using he
    exact ⟨p.2, by rw [← h1]; simpa using hp⟩
  · rintro ⟨c, hc⟩
    exact ⟨(t, c), hc, by simp⟩

/-- A present term makes the ALL lookup non-empty. -/
theorem symAllNeNilOfHasTerm {d : Dict} {q : List Char} {m : Nat}
    (h : hasTerm d q = true) : symAll d q m ≠ [] := by
  obtain ⟨c, hc⟩ := hasTermIff.mp h
  have hmem : (⟨q, osa q q, c⟩ : SuggestItem) ∈ candidatesAll d q m :=
    candidatesAllOfMem hc (by rw [osaSelf]; omega)
  intro hnil
  have hx := (symAllPerm d q m).mem_iff.mpr hmem
  rw [hnil] at hx
  exact absurd hx (List.not_mem_nil _)

/-- When the queried term is itself in the index, the head of the ALL lookup
is that term at distance 0 (the unique distance-0 candidate sorts first). -/
theorem symAllHeadOfHasTerm {d : Dict} {q : List Char} {m : Nat}
    {h0 : SuggestItem} {l : List SuggestItem}
    (hq : hasTerm d q = true) (he : symAll d q m = h0 :: l) :
    h0.term = q ∧ h0.distance = 0 := by
  obtain ⟨c, hc⟩ := hasTermIff.mp hq
  have hqc : (⟨q, 0, c⟩ : SuggestItem) ∈ candidatesAll d q m := by
    have h1 := candidatesAllOfMem (w := q) (m := m) hc (by rw [osaSelf]; omega)
    rwa [osaSelf] at h1
  have hsorted := sortedSymAll d q m
  rw [he] at hsorted
  have hqmem : (⟨q, 0, c⟩ : SuggestItem) ∈ h0 :: l := by
    rw [← he]
    exact (symAllPerm d q m).mem_iff.mpr hqc
  have hd0 : h0.distance = 0 := by
    rcases List.mem_cons.mp hqmem with heq | hmem
    · rw [← heq]
    · have := (List.sorted_cons.mp hsorted).1 _ hmem
      unfold sItemLe at this
      dsimp at this
      omega
  have hh0mem : h0 ∈ candidatesAll d q m := by
    have h2 : h0 ∈ h0 :: l := List.mem_cons_self _ _
    rw [← he] at h2
    exact (symAllPerm d q m).mem_iff.mp h2
  obtain ⟨-, hdist, -⟩ := memCandidatesAll hh0mem
  have hz : osa q h0.term = 0 := by rw [← hdist]; exact hd0
  exact ⟨(osaEqZero hz).symm, hd0⟩

/-- With the term present, `include_unknown` adds nothing. -/
theorem lookupAllIncOfHasTerm {d : Dict} {w : List Char} {m : Nat}
    (h : hasTerm d w = true) : lookupAllInc d w m = symAll d w m := by
  unfold lookupAllInc
  have hne := symAllNeNilOfHasTerm (m := m) h
  cases hs : symAll d w m with
  | nil => exact absurd hs hne
  | cons a l => rfl

/-- A word present in the index is never flagged by the services token step. -/
theorem flagTokenNewNilOfHasTerm {d : Dict} {w : List Char} {p : Nat}
    (h : hasTerm d w = true) : flagTokenNew d w p = [] := by
  have hne := symAllNeNilOfHasTerm (m := 2) h
  obtain ⟨h0, l, hs⟩ : ∃ h0 l, symAll d w 2 = h0 :: l := by
    cases hs : symAll d w 2 with
    | nil => exact absurd hs hne
    | cons a l => exact ⟨a, l, rfl⟩
  obtain ⟨ht, -⟩ := symAllHeadOfHasTerm h hs
  simp [flagTokenNew, lookupAllIncOfHasTerm h, hs, ht]

/-- A present lowercase term makes the TOP lookup a distance-0 self hit. -/
theorem topHitZeroOfHasTerm {d : Dict} {q : List Char}
    (h : hasTerm d q = true) (hl : lowerStr q = q) : topHitZero d q = true := by
  have hne := symAllNeNilOfHasTerm (m := 2) h
  obtain ⟨h0, l, hs⟩ : ∃ h0 l, symAll d q 2 = h0 :: l := by
    cases hs : symAll d q 2 with
    | nil => exact absurd hs hne
    | cons a l => exact ⟨a, l, rfl⟩
  obtain ⟨ht, hd⟩ := symAllHeadOfHasTerm h hs
  simp [topHitZero, lookupTopInc, lookupAllIncOfHasTerm h, hs, ht, hd, hl]

/-- Inserting a term with `create_dictionary_entry` makes it present. -/
theorem hasTermCreateSelf (d : Dict) (t : List Char) (c : Nat) :
    hasTerm (createDictionaryEntry d t c) t = true := by
  induction d with
  | nil => simp [createDictionaryEntry, hasTerm]
  | cons p rest ih =>
    obtain ⟨t', c'⟩ := p
    by_cases hp : t' = t
    · simp [createDictionaryEntry, hp, hasTerm]
    · simp only [createDictionaryEntry, if_neg hp, hasTerm, List.any_cons]
      exact Bool.or_eq_true_iff.mpr (Or.inr ih)

/-- Inserting with `create_dictionary_entry` keeps every present term present. -/
theorem hasTermCreateMono {d : Dict} {x : List Char} (t : List Char) (c : Nat)
    (h : hasTerm d x = true) : hasTerm (createDictionaryEntry d t c) x = true := by
  induction d with
  | nil => simp [hasTerm] at h
  | cons p rest ih =>
    rw [hasTerm, List.any_cons] at h
    by_cases hp : p.1 = t
    · rcases Bool.or_eq_true_iff.mp h with h1 | h1
      · simp only [createDictionaryEntry, if_pos hp, hasTerm, List.any_cons]
        exact Bool.or_eq_true_iff.mpr (Or.inl (by simpa using h1))
      · simp only [createDictionaryEntry, if_pos hp, hasTerm, List.any_cons]
        exact Bool.or_eq_true_iff.mpr (Or.inr h1)
    · rcases Bool.or_eq_true_iff.mp h with h1 | h1
      · simp only [createDictionaryEntry, if_neg hp, hasTerm, List.any_cons]
        exact Bool.or_eq_true_iff.mpr (Or.inl h1)
      · simp only [createDictionaryEntry, if_neg hp, hasTerm, List.any_cons]
        exact Bool.or_eq_true_iff.mpr (Or.inr (ih h1))

/-- Folding `create_dictionary_entry` over a term list keeps terms present. -/
theorem hasTermFoldlCreate {x : List Char} :
    ∀ (l : List (List Char)) (d : Dict), hasTerm d x = true →
      hasTerm (l.foldl (fun d t => createDictionaryEntry d t 1) d) x = true := by
  intro l
  induction l with
  | nil => intro d h; exact h
  | cons t rest ih =>
    intro d h
    exact ih _ (hasTermCreateMono t 1 h)

/-- The user-dictionary reload keeps every present term present. -/
theorem hasTermReload {s : SpellState} {x : List Char}
    (h : hasTerm s.dict x = true) : hasTerm (reloadUserTerms s).dict x = true := by
  unfold reloadUserTerms
  exact hasTermFoldlCreate _ _ h

/-- The services `check_text` keeps every present index term present. -/
theorem hasTermCheckTextNew {s : SpellState} {t x : List Char}
    (h : hasTerm s.dict x = true) : hasTerm (checkTextNew s t).dict x = true := by
  unfold checkTextNew
  exact hasTermReload h

/-- The services `add_to_dictionary` makes the added word present in the
index, whether or not the file write succeeds. -/
theorem hasTermAddSelf (s : SpellState) (w : List Char) (wo : Bool) :
    hasTerm (addToDictionary s w wo).dict w = true := by
  unfold addToDictionary
  dsimp only
  split
  · exact hasTermCreateSelf _ _ _
  · split
    · exact hasTermCreateSelf _ _ _
    · exact hasTermCreateSelf _ _ _

/-- Shape of a flagged entry of the services scan. -/
theorem memFlagTokenNew {d : Dict} {w : List Char} {p : Nat} {e : Entry}
    (h : e ∈ flagTokenNew d w p) : e = (w, lookupAllInc d w 2, p) := by
  revert h
  unfold flagTokenNew
  cases hl : lookupAllInc d w 2 with
  | nil => intro h; exact absurd h (List.not_mem_nil _)
  | cons h0 rest =>
    dsimp only
    by_cases hc : lowerStr h0.term ≠ lowerStr w
    · rw [if_pos hc]
      intro h
      rw [List.mem_singleton.mp h]
    · rw [if_neg hc]
      intro h
      exact absurd h (List.not_mem_nil _)

/-- Every entry produced by the services token loop comes from a
non-skipped token by the flagging step. -/
theorem memScanTokensNew {d : Dict} {ut it : List (List Char)}
    {sp : List (Nat × Nat)} {e : Entry} :
    ∀ {toks : List (List Char × Nat)}, e ∈ scanTokensNew d ut it sp toks →
      ∃ w pos, (w, pos) ∈ toks ∧ skipNew d ut it sp w pos = false ∧
        e ∈ flagTokenNew d w pos := by
  intro toks
  induction toks with
  | nil => intro h; exact absurd h (List.not_mem_nil _)
  | cons wp rest ih =>
    intro h
    obtain ⟨w, pos⟩ := wp
    simp only [scanTokensNew] at h
    rw [List.mem_append] at h
    rcases h with h | h
    · by_cases hskip : skipNew d ut it sp w pos
      · rw [if_pos hskip] at h
        exact absurd h (List.not_mem_nil _)
      · rw [if_neg hskip] at h
        exact ⟨w, pos, List.mem_cons_self _ _, by simpa using hskip, h⟩
    · obtain ⟨w', pos', hmem, hskip, hflag⟩ := ih h
      exact ⟨w', pos', List.mem_cons_of_mem _ hmem, hskip, hflag⟩

/-- Every entry of a services `check_text` result is a token of the
normalised document, flagged by an ALL lookup over the reloaded index. -/
theorem memMisspelledCheckTextNew {s : SpellState} {t : List Char} {e : Entry}
    (h : e ∈ (checkTextNew s t).misspelledWords) :
    ∃ w pos, (w, pos) ∈ tokenizeNew (normalizeApos t) ∧
      skipNew (reloadUserTerms s).dict (reloadUserTerms s).userTerms
        (reloadUserTerms s).ignoredTerms (newSkipSpans (normalizeApos t)) w pos = false ∧
      e = (w, lookupAllInc (reloadUserTerms s).dict w 2, pos) := by
  unfold checkTextNew at h
  dsimp only at h
  obtain ⟨w, pos, hmem, hskip, hflag⟩ := memScanTokensNew h
  exact ⟨w, pos, hmem, hskip, memFlagTokenNew hflag⟩

/-- Soundness of the run scanner: every produced run occurs in `t` at its
offset, is non-empty, and consists of characters satisfying `p`. -/
theorem runsAuxSpec (p : Char → Bool) (t : List Char) :
    ∀ (rest : List Char) (i : Nat) (st : Option (Nat × List Char)),
      t.drop i = rest →
      (∀ s acc, st = some (s, acc) →
        t.drop s = acc.reverse ++ rest ∧ acc ≠ [] ∧ ∀ c ∈ acc, p c = true) →
      ∀ w q, (w, q) ∈ runsAux p rest i st →
        (t.drop q).take w.length = w ∧ w ≠ [] ∧ ∀ c ∈ w, p c = true := by
  intro rest
  induction rest with
  | nil =>
    intro i st hdrop hst w q hmem
    cases st with
    | none => exact absurd hmem (List.not_mem_nil _)
    | some sa =>
      obtain ⟨s, acc⟩ := sa
      simp only [runsAux] at hmem
      obtain ⟨hw, hq⟩ := Prod.mk.inj (List.mem_singleton.mp hmem)
      obtain ⟨hd, hne, hall⟩ := hst _ _ rfl
      rw [List.append_nil] at hd
      rw [hw, hq]
      refine ⟨by rw [hd]; simp, by simpa using hne, ?_⟩
      intro c hc
      exact hall _ (List.mem_reverse.mp hc)
  | cons c cs ih =>
    intro i st hdrop hst w q hmem
    have hstep : t.drop (i + 1) = cs := by
      rw [← List.drop_drop, hdrop]
      rfl
    cases st with
    | none =>
      simp only [runsAux] at hmem
      by_cases hpc : p c
      · rw [if_pos hpc] at hmem
        refine ih (i + 1) (some (i, [c])) hstep ?_ w q hmem
        intro s' acc' hsa
        obtain ⟨hs', hacc'⟩ := Prod.mk.inj (Option.some.inj hsa.symm)
        rw [hs', hacc']
        exact ⟨by simpa using hdrop, by simp, by simp [hpc]⟩
      · rw [if_neg hpc] at hmem
        exact ih (i + 1) none hstep (by intro s' acc' h'; cases h') w q hmem
    | some sa =>
      obtain ⟨s, acc⟩ := sa
      simp only [runsAux] at hmem
      by_cases hpc : p c
      · rw [if_pos hpc] at hmem
        refine ih (i + 1) (some (s, c :: acc)) hstep ?_ w q hmem
        intro s' acc' hsa
        obtain ⟨hs', hacc'⟩ := Prod.mk.inj (Option.some.inj hsa.symm)
        rw [hs', hacc']
        obtain ⟨hd, hne, hall⟩ := hst _ _ rfl
        refine ⟨by rw [hd]; simp, by simp, ?_⟩
        intro c' hc'
        rcases List.mem_cons.mp hc' with rfl | h'
        · exact hpc
        · exact hall _ h'
      · rw [if_neg hpc] at hmem
        rcases List.mem_cons.mp hmem with heq | hmem'
        · obtain ⟨hw, hq⟩ := Prod.mk.inj heq
          obtain ⟨hd, hne, hall⟩ := hst _ _ rfl
          rw [hw, hq]
          refine ⟨?_, by simpa using hne, ?_⟩
          · rw [hd]
            exact List.take_left _ _
          · intro c' hc'
            exact hall _ (List.mem_reverse.mp hc')
        · exact ih (i + 1) none hstep (by intro s' acc' h'; cases h') w q hmem'

/-- Every run occurs in the scanned string at its offset. -/
theorem runsSpec {p : Char → Bool} {t w : List Char} {q : Nat}
    (h : (w, q) ∈ runs p t) :
    (t.drop q).take w.length = w ∧ w ≠ [] ∧ ∀ c ∈ w, p c = true :=
  runsAuxSpec p t t 0 none rfl (by intro s acc h'; cases h') w q h

/-- Offset validity of the legacy tokenizer. -/
theorem tokenizeOldSub {t w : List Char} {q : Nat}
    (h : (w, q) ∈ tokenizeOld t) : (t.drop q).take w.length = w :=
  (runsSpec h).1

/-- Splitting a list at the end of its trailing block of `p`-characters. -/
theorem revSplit (p : Char → Bool) (u : List Char) :
    ∃ v, u = (u.reverse.dropWhile p).reverse ++ v := by
  refine ⟨(u.reverse.takeWhile p).reverse, ?_⟩
  conv_lhs => rw [← List.reverse_reverse u, ← List.takeWhile_append_dropWhile p u.reverse]
  rw [List.reverse_append]

/-- Offset validity of the services tokenizer. -/
theorem tokenizeNewSub {t w : List Char} {q : Nat}
    (h : (w, q) ∈ tokenizeNew t) : (t.drop q).take w.length = w := by
  unfold tokenizeNew at h
  rw [List.mem_filterMap] at h
  obtain ⟨⟨r, s⟩, hrs, htrim⟩ := h
  obtain ⟨hsub, -, -⟩ := runsSpec hrs
  unfold trimApos at htrim
  dsimp only at htrim
  split at htrim
  · exact absurd htrim (by simp)
  · obtain ⟨hw, hq⟩ := Prod.mk.inj (Option.some.inj htrim)
    obtain ⟨v, hv⟩ :=
      revSplit (fun c => c = '\'') (r.drop (r.takeWhile (fun c => c = '\'')).length)
    rw [hw] at hv
    have hlead_le : (r.takeWhile (fun c => c = '\'')).length ≤ r.length := by
      have h1 := congrArg List.length
        (List.takeWhile_append_dropWhile (p := fun c => c = '\'') (l := r))
      rw [List.length_append] at h1
      omega
    obtain ⟨z, hz⟩ : ∃ z, t.drop s = r ++ z :=
      ⟨(t.drop s).drop r.length, by
        conv_lhs => rw [← List.take_append_drop r.length (t.drop s)]
        rw [hsub]⟩
    have hdropl : t.drop (s + (r.takeWhile (fun c => c = '\'')).length) = w ++ (v ++ z) := by
      rw [← List.drop_drop, hz, List.drop_append_of_le_length hlead_le, hv, List.append_assoc]
    rw [← hq, hdropl]
    exact List.take_left _ _

/-- The line splitter never produces an empty list of lines. -/
theorem splitNlNeNil (d : List Char) : splitNl d ≠ [] := by
  cases d with
  | nil => simp [splitNl]
  | cons c cs =>
    unfold splitNl
    by_cases h : c = '\n'
    · simp [h]
    · rw [if_neg h]
      cases splitNl cs <;> simp

/-- Joining the split lines restores the document
(`"\n".join(text.split("\n")) == text`). -/
theorem joinNlSplitNl (d : List Char) : joinNl (splitNl d) = d := by
  induction d with
  | nil => rfl
  | cons c cs ih =>
    unfold splitNl
    by_cases h : c = '\n'
    · rw [if_pos h, h]
      cases hs : splitNl cs with
      | nil => exact absurd hs (splitNlNeNil cs)
      | cons l ls =>
        rw [hs] at ih
        simp only [joinNl, List.nil_append]
        rw [ih]
    · rw [if_neg h]
      cases hs : splitNl cs with
      | nil => exact absurd hs (splitNlNeNil cs)
      | cons l ls =>
        rw [hs] at ih
        cases ls with
        | nil =>
          simp only [joinNl] at ih ⊢
          rw [ih]
        | cons l2 ls2 =>
          simp only [joinNl] at ih ⊢
          rw [List.cons_append, ih]

/-- The cursor produced by the conversion loop maps back to the original
text offset through `rowcol_to_offset`. -/
theorem convertLoopOffset :
    ∀ (lines : List (List Char)) (tp : Nat) (rc : Nat × Nat),
      convertLoop lines tp = some rc → rowColToOffset lines rc = tp := by
  intro lines
  induction lines with
  | nil => intro tp rc h; cases h
  | cons line rest ih =>
    intro tp rc h
    unfold convertLoop at h
    by_cases hle : tp ≤ line.length
    · rw [if_pos hle] at h
      cases h
      simp [rowColToOffset]
      omega
    · rw [if_neg hle] at h
      cases hrec : convertLoop rest (tp - (line.length + 1)) with
      | none => rw [hrec] at h; cases h
      | some rc' =>
        rw [hrec] at h
        cases h
        have h2 : rowColToOffset rest (rc'.1, rc'.2) = tp - (line.length + 1) := by
          have := ih _ _ hrec
          simpa using this
        simp only [rowColToOffset]
        rw [if_neg (by simp)]
        simp only [Nat.add_sub_cancel]
        omega

/-- On a position inside the buffer, the conversion loop succeeds. -/
theorem convertLoopIsSome :
    ∀ (lines : List (List Char)), lines ≠ [] → ∀ tp, tp ≤ (joinNl lines).length →
      ∃ rc, convertLoop lines tp = some rc := by
  intro lines
  induction lines with
  | nil => intro h; exact absurd rfl h
  | cons line rest ih =>
    intro _ tp htp
    by_cases hle : tp ≤ line.length
    · exact ⟨(0, tp), by unfold convertLoop; rw [if_pos hle]⟩
    · cases rest with
      | nil => exact absurd (by simpa [joinNl] using htp) hle
      | cons l2 ls2 =>
        have hlen : (joinNl (line :: l2 :: ls2)).length
            = line.length + 1 + (joinNl (l2 :: ls2)).length := by
          simp only [joinNl, List.length_append, List.length_cons]
          omega
        rw [hlen] at htp
        obtain ⟨rc', hrc'⟩ := ih (by simp) (tp - (line.length + 1)) (by omega)
        refine ⟨(rc'.1 + 1, rc'.2), ?_⟩
        unfold convertLoop
        rw [if_neg hle, hrc']

/-- Every entry of the legacy token loop comes from some token. -/
theorem memScanTokensOld {d : Dict} {sp : List (Nat × Nat)} {e : Entry} :
    ∀ {toks : List (List Char × Nat)}, e ∈ scanTokensOld d sp toks →
      ∃ w pos, (w, pos) ∈ toks ∧ e ∈ perTokenOld d w pos := by
  intro toks
  induction toks with
  | nil => intro h; exact absurd h (List.not_mem_nil _)
  | cons wp rest ih =>
    intro h
    obtain ⟨w, pos⟩ := wp
    simp only [scanTokensOld] at h
    rw [List.mem_append] at h
    rcases h with h | h
    · by_cases hig : shouldIgnoreLegacy w
      · rw [if_pos hig] at h
        exact absurd h (List.not_mem_nil _)
      · rw [if_neg hig] at h
        by_cases hsp : inSpans sp pos
        · rw [if_pos hsp] at h
          exact absurd h (List.not_mem_nil _)
        · rw [if_neg hsp] at h
          exact ⟨w, pos, List.mem_cons_self _ _, h⟩
    · obtain ⟨w', pos', hmem, he⟩ := ih h
      exact ⟨w', pos', List.mem_cons_of_mem _ hmem, he⟩

/-- A non-skipped token's per-token entries all appear in the legacy scan. -/
theorem scanTokensOldContains {d : Dict} {sp : List (Nat × Nat)}
    {w : List Char} {pos : Nat} {e : Entry} :
    ∀ {toks : List (List Char × Nat)}, (w, pos) ∈ toks →
      shouldIgnoreLegacy w = false → inSpans sp pos = false →
      e ∈ perTokenOld d w pos → e ∈ scanTokensOld d sp toks := by
  intro toks
  induction toks with
  | nil => intro h; exact absurd h (List.not_mem_nil _)
  | cons wp rest ih =>
    intro hmem hig hsp he
    obtain ⟨w', pos'⟩ := wp
    simp only [scanTokensOld]
    rw [List.mem_append]
    rcases List.mem_cons.mp hmem with heq | hmem'
    · obtain ⟨hw, hp⟩ := Prod.mk.inj heq
      left
      rw [← hw, ← hp, hig, hsp]
      simpa using he
    · exact Or.inr (ih hmem' hig hsp he)

/-- Shape of a legacy entry: the token's text and offset. -/
theorem memPerTokenOldShape {d : Dict} {w : List Char} {pos : Nat} {e : Entry}
    (h : e ∈ perTokenOld d w pos) : e.1 = w ∧ e.2.2 = pos := by
  unfold perTokenOld at h
  dsimp only at h
  split at h
  · exact absurd h (List.not_mem_nil _)
  · rw [List.mem_append] at h
    rcases h with h | h <;> (repeat' split at h) <;>
      first
        | exact absurd h (List.not_mem_nil _)
        | (simp only [List.mem_singleton] at h; subst h; exact ⟨rfl, rfl⟩)

/-- Retained elements of a distance-sorted cap are no farther than any
candidate that was dropped. -/
theorem takeClosest (l : List SuggestItem) (n : Nat) :
    ∀ a ∈ (List.insertionSort distLe l).take n, ∀ b ∈ l,
      distLe a b ∨ b ∈ (List.insertionSort distLe l).take n := by
  intro a ha b hb
  have hbs : b ∈ List.insertionSort distLe l :=
    (List.perm_insertionSort distLe l).mem_iff.mpr hb
  rw [← List.take_append_drop n (List.insertionSort distLe l)] at hbs
  rcases List.mem_append.mp hbs with hbt | hbd
  · exact Or.inr hbt
  · left
    have hs := List.sorted_insertionSort distLe l
    rw [← List.take_append_drop n (List.insertionSort distLe l)] at hs
    exact (List.pairwise_append.mp hs).2.2 a ha b hbd

/-- A capped distance sort is pairwise ordered by distance. -/
theorem pairwiseTakeSortDist (l : List SuggestItem) (n : Nat) :
    List.Pairwise distLe ((List.insertionSort distLe l).take n) :=
  List.Pairwise.sublist (List.take_sublist n _) (List.sorted_insertionSort distLe l)

/-- The symspellpy ordering implies non-decreasing distance. -/
theorem pairwiseDistSymAll (d : Dict) (w : List Char) (m : Nat) :
    List.Pairwise distLe (symAll d w m) :=
  (sortedSymAll d w m).imp (by intro a b h; unfold sItemLe distLe at *; omega)

/-- With `include_unknown`, the lookup result is still distance-sorted. -/
theorem pairwiseDistLookupAllInc (d : Dict) (w : List Char) (m : Nat) :
    List.Pairwise distLe (lookupAllInc d w m) := by
  unfold lookupAllInc
  cases hs : symAll d w m with
  | nil => simp
  | cons a l =>
    dsimp only
    rw [← hs]
    exact pairwiseDistSymAll d w m

/-- Shape of the suggestion list attached to a legacy entry: empty, or the
5-cap of the distance-sorted fuzzy lookup (the `word.lower()` retry only
fires when the primary lookup was empty). -/
theorem perTokenOldSuggCases {d : Dict} {w : List Char} {pos : Nat} {e : Entry}
    (h : e ∈ perTokenOld d w pos) :
    e.2.1 = [] ∨
    e.2.1 = (List.insertionSort distLe (symAll d (cleanWord w) 2)).take 5 ∨
    (symAll d (cleanWord w) 2 = [] ∧
      e.2.1 = (List.insertionSort distLe (symAll d (lowerStr w) 2)).take 5) := by
  unfold perTokenOld at h
  dsimp only at h
  split at h
  · exact absurd h (List.not_mem_nil _)
  · by_cases hall1 : symAll d (cleanWord w) 2 = []
    · rw [if_pos hall1] at h
      rw [List.mem_append] at h
      rcases h with h | h
      · split at h
        · simp only [List.mem_singleton] at h; subst h
          exact Or.inr (Or.inr ⟨hall1, rfl⟩)
        · simp only [List.mem_singleton] at h; subst h
          exact Or.inl rfl
      · split at h
        · split at h
          · simp only [List.mem_singleton] at h; subst h
            exact Or.inr (Or.inr ⟨hall1, rfl⟩)
          · exact absurd h (List.not_mem_nil _)
        · exact absurd h (List.not_mem_nil _)
    · rw [if_neg hall1] at h
      rw [List.mem_append] at h
      rcases h with h | h
      · split at h
        · simp only [List.mem_singleton] at h; subst h
          exact Or.inr (Or.inl rfl)
        · simp only [List.mem_singleton] at h; subst h
          exact Or.inl rfl
      · split at h
        · next hcond =>
          split at h
          · simp only [List.mem_singleton] at h; subst h
            exfalso
            have hlen := congrArg List.length hcond.2
            rw [List.length_take, List.length_insertionSort] at hlen
            apply hall1
            refine List.length_eq_zero.mp ?_
            simp only [List.length_nil] at hlen
            omega
          · exact absurd h (List.not_mem_nil _)
        · exact absurd h (List.not_mem_nil _)

/-- Suggestion-list facts for every legacy entry: distance-sorted, at most
five items, and nothing dropped was closer than anything retained. -/
theorem perTokenOldSuggFacts {d : Dict} {w : List Char} {pos : Nat} {e : Entry}
    (h : e ∈ perTokenOld d w pos) :
    List.Pairwise distLe e.2.1 ∧ e.2.1.length ≤ 5 ∧
    (∀ a ∈ e.2.1, ∀ b ∈ symAll d (cleanWord w) 2, distLe a b ∨ b ∈ e.2.1) := by
  rcases perTokenOldSuggCases h with h1 | h1 | ⟨hnil, h1⟩
  · rw [h1]
    exact ⟨List.Pairwise.nil, by simp,
      by intro a ha; exact absurd ha (List.not_mem_nil _)⟩
  · rw [h1]
    refine ⟨pairwiseTakeSortDist _ _, ?_, takeClosest _ _⟩
    rw [List.length_take]
    omega
  · rw [h1]
    refine ⟨pairwiseTakeSortDist _ _, ?_, ?_⟩
    · rw [List.length_take]
      omega
    · intro a ha b hb
      rw [hnil] at hb
      exact absurd hb (List.not_mem_nil _)

/-- A token that fails the membership test and has no fuzzy candidates is
recorded by the legacy per-token step with an empty suggestion list. -/
theorem perTokenOldEmpty {d : Dict} {w : List Char} {pos : Nat}
    (h0 : symAll d (cleanWord w) 0 = [])
    (h2 : symAll d (cleanWord w) 2 = [])
    (h2l : symAll d (lowerStr w) 2 = []) :
    perTokenOld d w pos = [(w, [], pos)] := by
  simp [perTokenOld, h0, h2, h2l, List.insertionSort]

/-- C1 (counterexample).  Offset validity fails against the original
document string in the services engine when the document contains a smart
apostrophe: `check_text` normalises `’` to `'` before tokenizing, so for the
document `don’t` (over a dictionary containing only `dont`) the returned
entry is `("don't", [dont@1], 0)`, and the original document's slice
`d[0:5]` is `don’t`, which differs from the recorded word. -/
theorem offsetValiditySmartApostropheCex :
    (checkTextNew stDont docSmart).misspelledWords
      = [(chars "don't", [⟨chars "dont", 1, 5⟩], 0)] ∧
    (docSmart.drop 0).take (chars "don't").length ≠ chars "don't" := by
  decide

/-- C1 (amended).  Offset validity holds against the document the tokenizer
actually scanned: in the services engine every returned entry satisfies
`normalized(d)[start_offset : start_offset + len(word)] == word` for the
apostrophe-normalised document (hence for `d` itself whenever `d` contains
no smart quotes), and in the legacy engine, which performs no normalisation,
the equality holds against the original document. -/
theorem offsetValidityNormalized :
    (∀ (s : SpellState) (t : List Char), ∀ e ∈ (checkTextNew s t).misspelledWords,
      ((normalizeApos t).drop e.2.2).take e.1.length = e.1) ∧
    (∀ (d : Dict) (t : List Char), ∀ e ∈ checkTextOldList d t,
      (t.drop e.2.2).take e.1.length = e.1) := by
  constructor
  · intro s t e he
    obtain ⟨w, pos, hmem, -, hshape⟩ := memMisspelledCheckTextNew he
    rw [hshape]
    exact tokenizeNewSub hmem
  · intro d t e he
    obtain ⟨w, pos, hmem, hper⟩ := memScanTokensOld he
    obtain ⟨hw, hpos⟩ := memPerTokenOldShape hper
    rw [hw, hpos]
    exact tokenizeOldSub hmem

/-- Witness for C1: the amended theorem applied to the services scan of
`don’t` and to the legacy scan of `zzzzzz`. -/
theorem offsetValidityNormalizedWitness :
    ((normalizeApos docSmart).drop 0).take (chars "don't").length = chars "don't" ∧
    ((chars "zzzzzz").drop 0).take (chars "zzzzzz").length = chars "zzzzzz" := by
  constructor
  · exact offsetValidityNormalized.1 stDont docSmart
      (chars "don't", [⟨chars "dont", 1, 5⟩], 0) (by decide)
  · exact offsetValidityNormalized.2 dictCat (chars "zzzzzz")
      (chars "zzzzzz", [], 0) (by decide)

/-- C2 (counterexample).  In the services engine a token that fails the
membership test and for which the maximum-distance query returns zero
candidates is NOT included in the misspelled list: with `include_unknown`
the lookup returns the token itself, and the `sugg[0].term.lower() != lw`
test then drops the word.  Scanning `zzzzzz` over a dictionary containing
only `cat` yields an empty list, not the entry `("zzzzzz", [], 0)` the
claim requires. -/
theorem noSuggestionWordDroppedCex :
    tokenizeNew (normalizeApos (chars "zzzzzz")) = [(chars "zzzzzz", 0)] ∧
    symAll stCat.dict (chars "zzzzzz") 2 = [] ∧
    (checkTextNew stCat (chars "zzzzzz")).misspelledWords = [] := by
  decide

/-- C2 (amended).  The legacy engine does record such words: every token
that is not skipped, fails the distance-0 membership test, and has zero
candidates at the maximum edit distance (under both its cleaned and
lowercased spelling) appears in the legacy `check_text` result with an
empty suggestion list.  The services engine drops such tokens (see the
counterexample). -/
theorem legacyRecordsEmptySuggestions (d : Dict) (t w : List Char) (pos : Nat)
    (hmem : (w, pos) ∈ tokenizeOld t)
    (hig : shouldIgnoreLegacy w = false)
    (hsp : inSpans (oldSkipRanges t) pos = false)
    (h0 : symAll d (cleanWord w) 0 = [])
    (h2 : symAll d (cleanWord w) 2 = [])
    (h2l : symAll d (lowerStr w) 2 = []) :
    (w, ([] : List SuggestItem), pos) ∈ checkTextOldList d t := by
  unfold checkTextOldList
  refine scanTokensOldContains hmem hig hsp ?_
  rw [perTokenOldEmpty h0 h2 h2l]
  exact List.mem_singleton.mpr rfl

/-- Witness for C2: the amended theorem applied to the legacy scan of
`zzzzzz`. -/
theorem legacyRecordsEmptySuggestionsWitness :
    (chars "zzzzzz", ([] : List SuggestItem), 0) ∈ checkTextOldList dictCat (chars "zzzzzz") :=
  legacyRecordsEmptySuggestions dictCat (chars "zzzzzz") (chars "zzzzzz") 0
    (by decide) (by decide) (by decide) (by decide) (by decide) (by decide)

/-- C3 (counterexample).  The legacy `replace_word` uses
`full_text.replace(old, suggestion)`, which replaces EVERY occurrence: for
the document `teh cat teh` with the current entry at offset 8, the result
is `the cat the`, which differs from the single-span replacement
`d[0:8] + "the" + d[11:] = "teh cat the"`. -/
theorem replaceWordAllOccurrencesCex :
    replaceWordLegacy (chars "teh") (chars "the") (chars "teh cat teh") = chars "the cat the" ∧
    replaceWordLegacy (chars "teh") (chars "the") (chars "teh cat teh")
      ≠ (chars "teh cat teh").take 8 ++ chars "the"
        ++ (chars "teh cat teh").drop (8 + (chars "teh").length) := by
  decide

/-- C3 (amended).  The keybindings accept-suggestion path does replace
exactly the current entry's span: converting the recorded offset and
offset-plus-length through `convert_text_position_to_cursor` and replacing
that location range yields `d[0:start] + s + d[start+len(word):]`, leaving
every other character unchanged.  The legacy `replace_word` helper instead
replaces every occurrence of the word, and the legacy editor handler
locates the word with `text.find` rather than the recorded offset. -/
theorem keybindingReplacementExactSpan (d w sugg : List Char) (pos : Nat)
    (h : pos + w.length ≤ d.length) :
    applySuggestionKeybinding d w pos sugg
      = d.take pos ++ sugg ++ d.drop (pos + w.length) := by
  unfold applySuggestionKeybinding textAreaReplace
  dsimp only
  have hne := splitNlNeNil d
  have hjl := joinNlSplitNl d
  have h1 : pos ≤ (joinNl (splitNl d)).length := by rw [hjl]; omega
  have h2 : pos + w.length ≤ (joinNl (splitNl d)).length := by rw [hjl]; omega
  obtain ⟨rc1, hrc1⟩ := convertLoopIsSome (splitNl d) hne pos h1
  obtain ⟨rc2, hrc2⟩ := convertLoopIsSome (splitNl d) hne (pos + w.length) h2
  unfold convertTextPositionToCursor
  rw [hrc1, hrc2]
  rw [convertLoopOffset _ _ _ hrc1, convertLoopOffset _ _ _ hrc2, hjl]

/-- Witness for C3: the amended theorem applied to the second `teh` of
`teh cat teh`. -/
theorem keybindingReplacementExactSpanWitness :
    applySuggestionKeybinding (chars "teh cat teh") (chars "teh") 8 (chars "the")
      = (chars "teh cat teh").take 8 ++ chars "the"
        ++ (chars "teh cat teh").drop (8 + (chars "teh").length) :=
  keybindingReplacementExactSpan (chars "teh cat teh") (chars "teh") (chars "the") 8
    (by decide)

/-- A token that survives the services skip policy and begins with an
uppercase letter did not get a distance-0 TOP hit on its lowercase form. -/
theorem skipNewCapFact {d : Dict} {ut it : List (List Char)}
    {sp : List (Nat × Nat)} {w : List Char} {pos : Nat}
    (h : skipNew d ut it sp w pos = false)
    (hcap : startsUpper w = true) :
    topHitZero d (lowerStr w) = false := by
  unfold skipNew at h
  dsimp only at h
  repeat' split at h
  any_goals cases h
  next hneg =>
    cases htz : topHitZero d (lowerStr w) with
    | false => rfl
    | true =>
      exfalso
      apply hneg
      rw [hcap, htz]
      rfl

/-- C4 (counterexample).  The claimed iff fails in the zero-candidate case:
`Zzzzzz` begins with an uppercase letter and its lowercase form `zzzzzz` is
misspelled (no distance-0 hit exists), yet the services `check_text` does
not flag it, because the include_unknown lookup returns the token itself
and the `sugg[0].term.lower() != lw` test then drops it. -/
theorem capitalizedIffCex :
    symAll stCat.dict (chars "zzzzzz") 0 = [] ∧
    (checkTextNew stCat (chars "Zzzzzz cat")).misspelledWords = [] := by
  decide

/-- C4 (amended).  (a) A capitalized token whose lowercase form is
correctly spelled (a distance-0 dictionary member) is never flagged:
every flagged entry that begins with an uppercase letter has a lowercase
form absent from the (reloaded) index.  (b) `Teh` in `Teh cat sat` IS
flagged.  A capitalized token with a misspelled lowercase form is flagged
only when the suggestion lookup returns a candidate whose lowercased term
differs from the token's; with zero candidates it is silently skipped (see
the counterexample). -/
theorem capitalizedRuleAmended :
    (∀ (s : SpellState) (t : List Char), ∀ e ∈ (checkTextNew s t).misspelledWords,
      startsUpper e.1 = true →
      hasTerm (reloadUserTerms s).dict (lowerStr e.1) = false) ∧
    ((checkTextNew stTeh (chars "Teh cat sat")).misspelledWords.map
        (fun e => (e.1, e.2.2)) = [(chars "Teh", 0)]) := by
  constructor
  · intro s t e he hcap
    unfold checkTextNew at he
    dsimp only at he
    obtain ⟨w, pos, hmem, hskip, hflag⟩ := memScanTokensNew he
    have hshape := memFlagTokenNew hflag
    have hw : e.1 = w := by rw [hshape]
    by_contra hterm
    rw [Bool.not_eq_false] at hterm
    have htz : topHitZero (reloadUserTerms s).dict (lowerStr e.1) = true :=
      topHitZeroOfHasTerm hterm (lowerStrIdem e.1)
    rw [hw] at hcap htz
    have hfz := skipNewCapFact hskip hcap
    rw [htz] at hfz
    cases hfz
  · decide

/-- Witness for C4: part (a) of the amended theorem applied to the flagged
entry `Teh` of `Teh cat sat`. -/
theorem capitalizedRuleAmendedWitness :
    hasTerm (reloadUserTerms stTeh).dict
      (lowerStr (chars "Teh", [(⟨chars "the", 2, 100⟩ : SuggestItem), ⟨chars "ten", 2, 10⟩],
        (0 : Nat)).1) = false :=
  capitalizedRuleAmended.1 stTeh (chars "Teh cat sat")
    (chars "Teh", [⟨chars "the", 2, 100⟩, ⟨chars "ten", 2, 10⟩], 0)
    (by decide) (by decide)

/-- C5 (confirmed).  For every word flagged by `check_text` the attached
suggestion list is sorted by non-decreasing edit distance; in the legacy
engine, where the fixed limit of 5 is imposed, at most the 5 closest
suggestions are retained: the list has length at most 5 and no retained
suggestion is farther than any dropped candidate of the fuzzy lookup. -/
theorem suggestionOrderingAndCap :
    (∀ (d : Dict) (t : List Char), ∀ e ∈ checkTextOldList d t,
      List.Pairwise distLe e.2.1 ∧ e.2.1.length ≤ 5 ∧
      (∀ a ∈ e.2.1, ∀ b ∈ symAll d (cleanWord e.1) 2, distLe a b ∨ b ∈ e.2.1)) ∧
    (∀ (s : SpellState) (t : List Char), ∀ e ∈ (checkTextNew s t).misspelledWords,
      List.Pairwise distLe e.2.1) := by
  constructor
  · intro d t e he
    obtain ⟨w, pos, hmem, hper⟩ := memScanTokensOld he
    obtain ⟨hw, -⟩ := memPerTokenOldShape hper
    rw [hw]
    exact perTokenOldSuggFacts hper
  · intro s t e he
    obtain ⟨w, pos, -, -, hshape⟩ := memMisspelledCheckTextNew he
    rw [hshape]
    exact pairwiseDistLookupAllInc _ _ _

/-- Witness for C5: the theorem applied to the legacy entry for `teh` over
the `dictTeh` dictionary. -/
theorem suggestionOrderingAndCapWitness :
    List.Pairwise distLe [(⟨chars "the", 1, 100⟩ : SuggestItem), ⟨chars "ten", 1, 10⟩] ∧
    ([(⟨chars "the", 1, 100⟩ : SuggestItem), ⟨chars "ten", 1, 10⟩] : List SuggestItem).length ≤ 5 := by
  have h := suggestionOrderingAndCap.1 dictTeh (chars "teh")
    (chars "teh", [⟨chars "the", 1, 100⟩, ⟨chars "ten", 1, 10⟩], 0) (by decide)
  exact ⟨h.1, h.2.1⟩

/-- C6 (counterexample).  Scanning is not idempotent in the services
engine: `check_text` itself re-inserts every user-dictionary term on each
pass, incrementing its frequency count, so two consecutive scans of the
unchanged document `caz` (with user term `cad`) return different suggestion
items (`cad` with count 2 on the first scan, count 3 on the second). -/
theorem scanNotIdempotentServicesCex :
    (checkTextNew stCad (chars "caz")).misspelledWords
      = [(chars "caz", [⟨chars "cat", 1, 5⟩, ⟨chars "cad", 1, 2⟩], 0)] ∧
    (checkTextNew (checkTextNew stCad (chars "caz")) (chars "caz")).misspelledWords
      = [(chars "caz", [⟨chars "cat", 1, 5⟩, ⟨chars "cad", 1, 3⟩], 0)] ∧
    (checkTextNew (checkTextNew stCad (chars "caz")) (chars "caz")).misspelledWords
      ≠ (checkTextNew stCad (chars "caz")).misspelledWords := by
  decide

/-- C6 (amended).  Scanning is idempotent in the legacy engine: its
`check_text` reads but never writes the SymSpell index, so two consecutive
calls on the same unchanged document return identical ordered lists.  In
the services engine the reload performed by `check_text` increments
user-term frequency counts, so consecutive scans can return different
suggestion data (see the counterexample). -/
theorem scanIdempotentLegacy (s : LegacyState) (t : List Char) :
    (checkTextLegacy (checkTextLegacy s t) t).misspelledWords
      = (checkTextLegacy s t).misspelledWords := rfl

/-- Calling `next_word` keeps the list and advances the cursor modulo the length. -/
theorem nextWordState (s : SpellState) (hne : s.misspelledWords ≠ []) :
    (nextWord s).1.misspelledWords = s.misspelledWords ∧
    (nextWord s).1.currentIndex
      = (s.currentIndex + 1) % (s.misspelledWords.length : Int) := by
  unfold nextWord
  rw [if_neg hne]
  exact ⟨rfl, rfl⟩

/-- Iterating `next_word` keeps the list and adds the iteration count to the
cursor modulo the length. -/
theorem nextWordIter (s : SpellState) (hne : s.misspelledWords ≠ []) (k : Nat) :
    ((fun st => (nextWord st).1)^[k] s).misspelledWords = s.misspelledWords ∧
    ((fun st => (nextWord st).1)^[k] s).currentIndex
      = if k = 0 then s.currentIndex
        else (s.currentIndex + k) % (s.misspelledWords.length : Int) := by
  induction k with
  | zero => simp
  | succ k ih =>
    obtain ⟨hlist, hidx⟩ := ih
    rw [Function.iterate_succ_apply']
    have hne' : ((fun st => (nextWord st).1)^[k] s).misspelledWords ≠ [] := by
      rw [hlist]; exact hne
    obtain ⟨hl2, hi2⟩ := nextWordState _ hne'
    constructor
    · rw [hl2, hlist]
    · rw [hi2, hidx, hlist]
      by_cases hk : k = 0
      · subst hk
        simp
      · rw [if_neg hk, if_neg (Nat.succ_ne_zero k)]
        rw [show ((k + 1 : Nat) : Int) = (k : Int) + 1 by push_cast; ring, ← add_assoc]
        conv_rhs => rw [Int.add_emod]
        conv_lhs => rw [Int.add_emod]
        rw [Int.emod_emod_of_dvd _ dvd_rfl]

/-- The `get_current_word` accessor depends only on the list and the cursor. -/
theorem getCurrentWordCongr {s s' : SpellState}
    (hl : s.misspelledWords = s'.misspelledWords)
    (hi : s.currentIndex = s'.currentIndex) :
    getCurrentWord s = getCurrentWord s' := by
  unfold getCurrentWord
  rw [hl, hi]

/-- C7 (confirmed).  Circular cursor navigation: on a list of `N > 1`
entries with the cursor in range, calling `next_word` `N` times returns to
the entry (and index) that was current before, and one `previous_word`
from index 0 lands on index `N - 1`: both directions wrap modulo the list
length, exactly as Python's `%` does. -/
theorem navigationWraparound (s : SpellState)
    (hlen : 1 < s.misspelledWords.length)
    (h0 : 0 ≤ s.currentIndex)
    (h1 : s.currentIndex < (s.misspelledWords.length : Int)) :
    getCurrentWord ((fun st => (nextWord st).1)^[s.misspelledWords.length] s)
      = getCurrentWord s ∧
    ((fun st => (nextWord st).1)^[s.misspelledWords.length] s).currentIndex
      = s.currentIndex ∧
    (s.currentIndex = 0 →
      (previousWord s).1.currentIndex = (s.misspelledWords.length : Int) - 1) := by
  have hne : s.misspelledWords ≠ [] := by
    intro h
    rw [h] at hlen
    simp at hlen
  obtain ⟨hlist, hidx⟩ := nextWordIter s hne s.misspelledWords.length
  have hidx' :
      ((fun st => (nextWord st).1)^[s.misspelledWords.length] s).currentIndex
        = s.currentIndex := by
    rw [hidx, if_neg (by omega : ¬s.misspelledWords.length = 0)]
    have h2 : (s.currentIndex + (s.misspelledWords.length : Int))
        % (s.misspelledWords.length : Int)
        = (s.currentIndex + (s.misspelledWords.length : Int) * 1)
        % (s.misspelledWords.length : Int) := by norm_num
    rw [h2, Int.add_mul_emod_self_left]
    exact Int.emod_eq_of_lt h0 h1
  refine ⟨getCurrentWordCongr hlist hidx', hidx', ?_⟩
  intro hz
  unfold previousWord
  rw [if_neg hne]
  dsimp only
  rw [hz]
  have hN : (1 : Int) < (s.misspelledWords.length : Int) := by exact_mod_cast hlen
  have hm1 : ((0 : Int) - 1) % (s.misspelledWords.length : Int)
      = (-1 + (s.misspelledWords.length : Int) * 1) % (s.misspelledWords.length : Int) := by
    rw [Int.add_mul_emod_self_left]
    norm_num
  rw [hm1, show (-1 + (s.misspelledWords.length : Int) * 1)
      = (s.misspelledWords.length : Int) - 1 by ring]
  exact Int.emod_eq_of_lt (by omega) (by omega)

/-- Witness for C7: the theorem at a concrete two-entry state. -/
theorem navigationWraparoundWitness :
    getCurrentWord ((fun st => (nextWord st).1)^[navEx.misspelledWords.length] navEx)
      = getCurrentWord navEx ∧
    ((fun st => (nextWord st).1)^[navEx.misspelledWords.length] navEx).currentIndex
      = navEx.currentIndex ∧
    (navEx.currentIndex = 0 →
      (previousWord navEx).1.currentIndex = (navEx.misspelledWords.length : Int) - 1) :=
  navigationWraparound navEx (by decide) (by decide) (by decide)

/-- The misspelling-list rebuild of the services `check_text` establishes
the cursor invariant regardless of the previous state. -/
theorem cursorInvSet (s' : SpellState) (E : List Entry) :
    cursorInv { s' with misspelledWords := E,
                        currentIndex := if E = [] then -1 else 0 } := by
  constructor
  · intro h
    dsimp only at h ⊢
    rw [if_pos h]
  · intro h
    dsimp only at h ⊢
    rw [if_neg h]
    have hp : 0 < E.length := List.length_pos.mpr h
    exact ⟨by omega, by exact_mod_cast hp⟩

/-- C8 (confirmed).  The cursor-index invariant: it holds after engine
construction; `check_text` re-establishes it unconditionally and sets the
cursor to 0 on a non-empty result and to -1 on an empty one; `next_word`
and `previous_word` preserve it (`get_current_word` reads the state without
mutating it, by construction). -/
theorem cursorIndexInvariant :
    (∀ (d : Dict) (fl : List (List Char)), cursorInv (mkSpellState d fl)) ∧
    (∀ (s : SpellState) (t : List Char),
      cursorInv (checkTextNew s t) ∧
      ((checkTextNew s t).misspelledWords = [] → (checkTextNew s t).currentIndex = -1) ∧
      ((checkTextNew s t).misspelledWords ≠ [] → (checkTextNew s t).currentIndex = 0)) ∧
    (∀ s : SpellState, cursorInv s → cursorInv (nextWord s).1) ∧
    (∀ s : SpellState, cursorInv s → cursorInv (previousWord s).1) := by
  refine ⟨?_, ?_, ?_, ?_⟩
  · intro d fl
    exact ⟨fun _ => rfl, fun h => absurd rfl h⟩
  · intro s t
    refine ⟨cursorInvSet (reloadUserTerms s) _, ?_, ?_⟩
    · intro h
      have hinv := cursorInvSet (reloadUserTerms s)
        (scanTokensNew (reloadUserTerms s).dict (reloadUserTerms s).userTerms
          (reloadUserTerms s).ignoredTerms (newSkipSpans (normalizeApos t))
          (tokenizeNew (normalizeApos t)))
      exact hinv.1 h
    · intro h
      unfold checkTextNew at h ⊢
      dsimp only at h ⊢
      rw [if_neg h]
  · intro s hinv
    unfold nextWord
    by_cases hne : s.misspelledWords = []
    · rw [if_pos hne]
      exact hinv
    · rw [if_neg hne]
      dsimp only
      refine ⟨fun hl => absurd hl hne, fun _ => ?_⟩
      have hN : (0 : Int) < (s.misspelledWords.length : Int) := by
        exact_mod_cast List.length_pos.mpr hne
      exact ⟨Int.emod_nonneg _ (by omega), Int.emod_lt_of_pos _ hN⟩
  · intro s hinv
    unfold previousWord
    by_cases hne : s.misspelledWords = []
    · rw [if_pos hne]
      exact hinv
    · rw [if_neg hne]
      dsimp only
      refine ⟨fun hl => absurd hl hne, fun _ => ?_⟩
      have hN : (0 : Int) < (s.misspelledWords.length : Int) := by
        exact_mod_cast List.length_pos.mpr hne
      exact ⟨Int.emod_nonneg _ (by omega), Int.emod_lt_of_pos _ hN⟩

/-- Witness for C8: the invariant parts applied at concrete states. -/
theorem cursorIndexInvariantWitness :
    cursorInv (mkSpellState dictCat []) ∧ cursorInv (nextWord navEx).1 :=
  ⟨cursorIndexInvariant.1 dictCat [],
   cursorIndexInvariant.2.2.1 navEx (by decide)⟩

/-- C9 (counterexample).  In the legacy engine the user-dictionary append
of `add_to_dictionary` is not wrapped in `try/except`: a failing write
raises out of the engine (while a succeeding one does not). -/
theorem legacyAddRaisesOnWriteFailureCex :
    isError (addToDictionaryLegacy legacyEmpty (chars "foo") false) = true ∧
    isError (addToDictionaryLegacy legacyEmpty (chars "foo") true) = false := by
  decide

/-- C9 (amended).  In the services engine write-failure containment holds:
`add_to_dictionary` never raises (it is total on every `writeOk`), the
added word is in the SymSpell index whether or not the file write
succeeded, `check_text` never removes it from the index, and no scan over
an index containing the word ever flags an occurrence of that word.  In
the legacy engine a failing append raises to the caller (see the
counterexample). -/
theorem servicesAddContainsWriteFailure :
    (∀ (s : SpellState) (w : List Char) (wo : Bool),
      hasTerm (addToDictionary s w wo).dict w = true) ∧
    (∀ (s : SpellState) (t w : List Char), hasTerm s.dict w = true →
      hasTerm (checkTextNew s t).dict w = true) ∧
    (∀ (s : SpellState) (t w : List Char), hasTerm s.dict w = true →
      ∀ e ∈ (checkTextNew s t).misspelledWords, e.1 ≠ w) := by
  refine ⟨hasTermAddSelf, fun s t w h => hasTermCheckTextNew h, ?_⟩
  intro s t w hterm e he heq
  unfold checkTextNew at he
  dsimp only at he
  obtain ⟨w', pos, hmem, hskip, hflag⟩ := memScanTokensNew he
  have hshape := memFlagTokenNew hflag
  have hw' : w' = w := by
    rw [hshape] at heq
    exact heq
  rw [hw'] at hflag
  rw [flagTokenNewNilOfHasTerm (hasTermReload hterm)] at hflag
  exact absurd hflag (List.not_mem_nil _)

/-- Witness for C9: adding `qqq` with a failing write still prevents a
subsequent scan of `qqq` from flagging it. -/
theorem servicesAddContainsWriteFailureWitness :
    hasTerm (addToDictionary stCat (chars "qqq") false).dict (chars "qqq") = true ∧
    (∀ e ∈ (checkTextNew (addToDictionary stCat (chars "qqq") false)
        (chars "qqq")).misspelledWords, e.1 ≠ chars "qqq") :=
  ⟨servicesAddContainsWriteFailure.1 stCat (chars "qqq") false,
   servicesAddContainsWriteFailure.2.2 (addToDictionary stCat (chars "qqq") false)
     (chars "qqq") (chars "qqq") (by decide)⟩

/-- After a services `add_to_dictionary` the lowercase term is a user term. -/
theorem addToDictionaryMemAfter (s : SpellState) (w : List Char) (wo : Bool) :
    lowerStr w ∈ (addToDictionary s w wo).userTerms := by
  unfold addToDictionary
  dsimp only
  split
  · next h => exact h
  · split <;> simp

/-- A services `add_to_dictionary` of an already-recorded user term changes
neither the user dictionary file nor the user-term set. -/
theorem addToDictionaryMemNoChange {s : SpellState} {w : List Char} {wo : Bool}
    (h : lowerStr w ∈ s.userTerms) :
    (addToDictionary s w wo).userFileLines = s.userFileLines ∧
    (addToDictionary s w wo).userTerms = s.userTerms := by
  unfold addToDictionary
  dsimp only
  rw [if_pos h]
  exact ⟨rfl, rfl⟩

/-- C10 (counterexample).  The legacy `add_to_dictionary` is NOT idempotent
on the file: its duplicate check compares the cleaned word (`foo`) against
whole file lines of the form `foo 1`, which never match, so a second
consecutive add of the same word appends a duplicate line. -/
theorem legacyAddDuplicatesFileCex :
    legacyAfterOneAdd = some (chars "foo 1\n") ∧
    legacyAfterTwoAdds = some (chars "foo 1\nfoo 1\n") ∧
    chars "foo 1\nfoo 1\n" ≠ chars "foo 1\n" := by
  decide

/-- C10 (amended).  The services `add_to_dictionary` is idempotent on the
file: when the word's lowercase form is already in the in-memory user-term
set nothing is appended, and a second consecutive call leaves both the
file and the user-term set exactly as the first call left them.  The
legacy variant appends a duplicate line on every call (see the
counterexample). -/
theorem servicesAddIdempotentOnFile :
    (∀ (s : SpellState) (w : List Char) (wo : Bool),
      (addToDictionary (addToDictionary s w wo) w wo).userFileLines
        = (addToDictionary s w wo).userFileLines ∧
      (addToDictionary (addToDictionary s w wo) w wo).userTerms
        = (addToDictionary s w wo).userTerms) ∧
    (∀ (s : SpellState) (w : List Char) (wo : Bool), lowerStr w ∈ s.userTerms →
      (addToDictionary s w wo).userFileLines = s.userFileLines ∧
      (addToDictionary s w wo).userTerms = s.userTerms) := by
  constructor
  · intro s w wo
    exact addToDictionaryMemNoChange (addToDictionaryMemAfter s w wo)
  · intro s w wo h
    exact addToDictionaryMemNoChange h

/-- Witness for C10: adding the already-recorded user term `cad` twice. -/
theorem servicesAddIdempotentOnFileWitness :
    (addToDictionary (addToDictionary stCad (chars "cad") true) (chars "cad") true).userFileLines
      = (addToDictionary stCad (chars "cad") true).userFileLines ∧
    (addToDictionary stCad (chars "cad") true).userFileLines = stCad.userFileLines :=
  ⟨(servicesAddIdempotentOnFile.1 stCad (chars "cad") true).1,
   (servicesAddIdempotentOnFile.2 stCad (chars "cad") true (by decide)).1⟩

end Wrtr
